import Mathlib

/-!
Verification development for the cross-node synchronization engine
(`global.go` of gardod/gubernator): the hit-aggregation pipeline
(`runAsyncHits` / `sendHits`), the status-broadcast pipeline
(`runBroadcasts` / `updatePeers`), the shared debounce interval timer,
and the stats accounting (`Stats`).

Go `int64` arithmetic wraps on overflow; `wrap64` models two's-complement
64-bit addition results where the source adds `int64` values.

Batches (Go `map[string]*RateLimitReq`) are modelled as association lists
whose keys are unique in every reachable state; list length therefore is
the number of distinct keys.
-/

/-- Two's-complement wrap of an integer into the `int64` range, modelling
Go `int64` overflow on addition. -/
def wrap64 (x : Int) : Int := (x + 2 ^ 63) % 2 ^ 64 - 2 ^ 63

/-- The integer lies in the `int64` range. -/
def inInt64 (x : Int) : Prop := -(2 ^ 63) ≤ x ∧ x < 2 ^ 63

instance (x : Int) : Decidable (inInt64 x) := by
  unfold inInt64
  infer_instance

/-- Model of Go `RateLimitReq`.  `hashKey` stands for the string returned by
`HashKey()` (derived from name and unique key); `hits` and `behavior` are
the mutable `Hits` / `Behavior` fields; `limit` and `duration` stand for
the remaining payload fields, carried to state frame properties. -/
structure RateLimitReq where
  hashKey : String
  hits : Int
  behavior : Int
  limit : Int
  duration : Int
  deriving DecidableEq, Repr

/-- Model of `BehaviorConfig`: debounce wait, batch size limit, per-call
timeout. -/
structure BehaviorConfig where
  globalSyncWait : Int
  globalBatchLimit : Nat
  globalTimeout : Int
  deriving DecidableEq, Repr

/-- Modelled from the spec: the `IntervalTimer` timer type (`NewInterval`,
`Next`, channel `C`) is not part of `global.go`; section 4.1 of the spec
specifies it as a state machine over idle and armed, where `start` arms the
timer to fire once at now plus the wait duration if it is not already
armed, is a no-op while armed, and the timer becomes dormant after firing.
`armed` is that state bit and `deadline` the scheduled fire time. -/
structure IntervalTimer where
  armed : Bool
  deadline : Int
  deriving DecidableEq, Repr

/-- Modelled from the spec: `IntervalTimer.Next` arms an idle timer to fire at
`now + wait`; while already armed it is a no-op and does not extend the
scheduled fire time. -/
def IntervalTimer.next (i : IntervalTimer) (now wait : Int) : IntervalTimer :=
  if i.armed then i else { armed := true, deadline := now + wait }

/-- Modelled from the spec: after firing, the timer becomes dormant and
must be explicitly re-armed. -/
def IntervalTimer.fire (i : IntervalTimer) : IntervalTimer := { i with armed := false }

/-- The hit-merge of `runAsyncHits`: if the key is already present, add the
incoming `Hits` to the stored entry (`hits[key].Hits += r.Hits`, an `int64`
addition); otherwise insert the request itself (`hits[key] = r`). -/
def mergeHit : List (String × RateLimitReq) → RateLimitReq → List (String × RateLimitReq)
  | [], r => [(r.hashKey, r)]
  | (k, q) :: rest, r =>
    if k = r.hashKey then
      (k, { q with hits := wrap64 (q.hits + r.hits) }) :: rest
    else
      (k, q) :: mergeHit rest r

/-- The update-insert of `runBroadcasts`: `updates[r.HashKey()] = r`,
last write wins for a repeated key. -/
def putUpdate : List (String × RateLimitReq) → RateLimitReq → List (String × RateLimitReq)
  | [], r => [(r.hashKey, r)]
  | (k, q) :: rest, r =>
    if k = r.hashKey then
      (k, r) :: rest
    else
      (k, q) :: putUpdate rest r

/-- State of the `runAsyncHits` loop: the pending batch `hits`, the
debounce interval, and the log of batches handed to `sendHits` (dispatch
itself is modelled separately by `sendHits`). -/
structure AsyncState where
  hits : List (String × RateLimitReq)
  interval : IntervalTimer
  flushed : List (List (String × RateLimitReq))
  deriving DecidableEq, Repr

/-- State of the `runBroadcasts` loop: the pending batch `updates`, the
debounce interval, and the log of batches handed to `updatePeers`. -/
structure BroadcastState where
  updates : List (String × RateLimitReq)
  interval : IntervalTimer
  flushed : List (List (String × RateLimitReq))
  deriving DecidableEq, Repr

/-- One select event of a pipeline loop: a request received from the
queue at time `now`, the interval channel firing, or the shutdown signal. -/
inductive LoopEvent where
  | recv (now : Int) (r : RateLimitReq)
  | tick
  | done
  deriving DecidableEq, Repr

/-- One iteration of the `runAsyncHits` select loop.  On receive: merge by
hash key; if the batch length reached `GlobalBatchLimit`, flush and reset
(skipping the interval arm, as the code returns there); else if the batch
length is one, arm the interval.  On interval fire: the timer goes
dormant and a non-empty batch is flushed.  On shutdown: exit without a
final flush. -/
def asyncHitsStep (conf : BehaviorConfig) (s : AsyncState) : LoopEvent → AsyncState
  | .recv now r =>
    let hits := mergeHit s.hits r
    if hits.length = conf.globalBatchLimit then
      { s with hits := [], flushed := s.flushed ++ [hits] }
    else if hits.length = 1 then
      { s with hits := hits, interval := s.interval.next now conf.globalSyncWait }
    else
      { s with hits := hits }
  | .tick =>
    if s.hits.isEmpty then
      { s with interval := s.interval.fire }
    else
      { hits := [], interval := s.interval.fire, flushed := s.flushed ++ [s.hits] }
  | .done => s

/-- One iteration of the `runBroadcasts` select loop; same shape as
`asyncHitsStep` with last-write-wins insertion and `updatePeers` flushes. -/
def runBroadcastsStep (conf : BehaviorConfig) (s : BroadcastState) : LoopEvent → BroadcastState
  | .recv now r =>
    let updates := putUpdate s.updates r
    if updates.length = conf.globalBatchLimit then
      { s with updates := [], flushed := s.flushed ++ [updates] }
    else if updates.length = 1 then
      { s with updates := updates, interval := s.interval.next now conf.globalSyncWait }
    else
      { s with updates := updates }
  | .tick =>
    if s.updates.isEmpty then
      { s with interval := s.interval.fire }
    else
      { updates := [], interval := s.interval.fire, flushed := s.flushed ++ [s.updates] }
  | .done => s

/-- The initial `runAsyncHits` state: empty batch, dormant interval,
nothing flushed. -/
def initAsync : AsyncState :=
  { hits := [], interval := { armed := false, deadline := 0 }, flushed := [] }

/-- Run the `runAsyncHits` loop over a sequence of received requests, each
tagged with its arrival time. -/
def runRecv (conf : BehaviorConfig) (s : AsyncState) (es : List (Int × RateLimitReq)) : AsyncState :=
  es.foldl (fun t e => asyncHitsStep conf t (.recv e.1 e.2)) s

/-- Model of a peer client / peer descriptor: its host identity and the
`isOwner` flag marking the local node in the peer list. -/
structure Peer where
  host : String
  isOwner : Bool
  deriving DecidableEq, Repr

/-- Model of the `RateLimitResp` status produced by `getRateLimit`; its
fields are opaque to this core, `remaining` stands for the payload. -/
structure RateLimitResp where
  remaining : Int
  deriving DecidableEq, Repr

/-- One entry of an `UpdatePeerGlobalsReq`: a hash key and its status. -/
structure UpdatePeerGlobal where
  key : String
  status : RateLimitResp
  deriving DecidableEq, Repr

/-- The per-peer grouping step of `sendHits`: append the request to the
existing `peerRequests` entry for this host, or create a new entry holding
just this request. -/
def addReq : List (String × List RateLimitReq) → String → RateLimitReq → List (String × List RateLimitReq)
  | [], h, r => [(h, [r])]
  | (h', l) :: rest, h, r =>
    if h' = h then
      (h', l ++ [r]) :: rest
    else
      (h', l) :: addReq rest h r

/-- One iteration of the assignment loop of `sendHits`: resolve the
request's owning peer with `GetPeer(r.HashKey())`; on error log and skip
the request, otherwise group it under the peer's host. -/
def assignHit (getPeer : String → Option Peer) (acc : List (String × List RateLimitReq)) (e : String × RateLimitReq) : List (String × List RateLimitReq) :=
  match getPeer e.2.hashKey with
  | none => acc
  | some p => addReq acc p.host e.2

/-- The assignment loop of `sendHits`: assign each request of the batch to
its owning peer, building `peerRequests`. -/
def groupHits (getPeer : String → Option Peer) (hits : List (String × RateLimitReq)) : List (String × List RateLimitReq) :=
  hits.foldl (assignHit getPeer) []

/-- Result of `sendHits`: the per-peer calls issued, the hosts whose send
failed (logged and skipped), and the `AsyncGlobalsCount` counter after the
final `atomic.AddInt64` of the batch size. -/
structure SendHitsResult where
  calls : List (String × List RateLimitReq)
  failedHosts : List String
  newCount : Int
  deriving DecidableEq, Repr

/-- Model of `sendHits`: group the batch by owning peer, issue one call per
destination (`sendOk` gives each call's outcome; failures are logged and
skipped), then add the batch size (`len(hits)`, the number of entries of
the map) to `AsyncGlobalsCount` with 64-bit wrapping. -/
def sendHits (getPeer : String → Option Peer) (sendOk : String → Bool) (hits : List (String × RateLimitReq)) (count : Int) : SendHitsResult :=
  let calls := groupHits getPeer hits
  { calls := calls
    failedHosts := ((calls.filter (fun c => !sendOk c.1)).map Prod.fst)
    newCount := wrap64 (count + hits.length) }

/-- The in-place clearing `updatePeers` performs on each queued request
before local evaluation: `rl.Behavior = 0; rl.Hits = 0`. -/
def clearReq (r : RateLimitReq) : RateLimitReq := { r with behavior := 0, hits := 0 }

/-- The accumulation loop of `updatePeers`: clear each request, evaluate it
locally (`getRateLimit`), skip keys whose evaluation fails, and accumulate
the (key, status) entries of the broadcast message.  Returns the requests
passed to evaluation alongside the accumulated `Globals` list. -/
def buildGlobals (eval : RateLimitReq → Option RateLimitResp) : List (String × RateLimitReq) → List RateLimitReq × List UpdatePeerGlobal
  | [] => ([], [])
  | (_, rl) :: rest =>
    let rl := clearReq rl
    let acc := buildGlobals eval rest
    match eval rl with
    | none => (rl :: acc.1, acc.2)
    | some st => (rl :: acc.1, { key := rl.hashKey, status := st } :: acc.2)

/-- The dispatch loop of `updatePeers`: walk the peer list, skip the peer
flagged as owner (ourselves), and send the accumulated message to every
other peer. -/
def broadcastSends (globals : List UpdatePeerGlobal) : List Peer → List (Peer × List UpdatePeerGlobal)
  | [] => []
  | peer :: rest =>
    if peer.isOwner then
      broadcastSends globals rest
    else
      (peer, globals) :: broadcastSends globals rest

/-- The final statistics update of `updatePeers`: store the flush duration
into `BroadcastDuration` only when it exceeds the stored value. -/
def recordBroadcastDuration (stored d : Int) : Int :=
  if stored < d then d else stored

/-- Result of `updatePeers`: the requests passed to local evaluation, the
accumulated message, the per-peer sends (each with the payload it
carries), the batch's request objects after the in-place clearing, and the
`BroadcastDuration` statistic after the high-water update. -/
structure UpdatePeersResult where
  evalCalls : List RateLimitReq
  globals : List UpdatePeerGlobal
  sends : List (Peer × List UpdatePeerGlobal)
  mutated : List (String × RateLimitReq)
  newDuration : Int
  deriving DecidableEq, Repr

/-- Model of `updatePeers`: build the broadcast message from the cleared
requests, send it to every non-owner peer in the current peer list, and
update the high-water `BroadcastDuration` statistic with this flush's
measured dispatch duration `d`.  The `mutated` field records the effect of
the in-place clearing on the queued request objects themselves. -/
def updatePeers (eval : RateLimitReq → Option RateLimitResp) (peerList : List Peer) (updates : List (String × RateLimitReq)) (d : Int) (stored : Int) : UpdatePeersResult :=
  let acc := buildGlobals eval updates
  { evalCalls := acc.1
    globals := acc.2
    sends := broadcastSends acc.2 peerList
    mutated := updates.map (fun e => (e.1, clearReq e.2))
    newDuration := recordBroadcastDuration stored d }

/-- Model of `ServerStats`: the two atomic counters. -/
structure ServerStats where
  asyncGlobalsCount : Int
  broadcastDuration : Int
  deriving DecidableEq, Repr

/-- Model of the `Stats` method: return a snapshot of both counters; with
`clear` set, both counters are stored to zero after the read (the Go code
defers the stores, so the returned snapshot is the pre-clear value).
Returns (snapshot, state after the call). -/
def Stats (clear : Bool) (s : ServerStats) : ServerStats × ServerStats :=
  ({ asyncGlobalsCount := s.asyncGlobalsCount, broadcastDuration := s.broadcastDuration },
   if clear then { asyncGlobalsCount := 0, broadcastDuration := 0 } else s)

/-- Every intermediate `int64` sum `a + x₁`, `a + x₁ + x₂`, ... stays in
the `int64` range, so no wrapping occurs while accumulating `xs` onto `a`. -/
def sumsInRange : Int → List Int → Bool
  | _, [] => true
  | a, x :: xs => decide (inInt64 (a + x)) && sumsInRange (a + x) xs

theorem wrap64_eq_of_inInt64 (x : Int) (h : inInt64 x) : wrap64 x = x := by
  unfold wrap64
  unfold inInt64 at h
  rw [Int.emod_eq_of_lt (by omega) (by omega)]
  omega

theorem foldl_wrap_of_sumsInRange (xs : List Int) : ∀ a : Int, sumsInRange a xs = true →
    xs.foldl (fun b x => wrap64 (b + x)) a = a + xs.sum := by
  induction xs with
  | nil => intro a _; simp
  | cons x xs ih =>
    intro a h
    simp only [sumsInRange, Bool.and_eq_true, decide_eq_true_eq] at h
    simp only [List.foldl_cons, List.sum_cons]
    rw [wrap64_eq_of_inInt64 _ h.1, ih (a + x) h.2]
    omega

theorem next_of_armed (i : IntervalTimer) (now wait : Int) (h : i.armed = true) :
    IntervalTimer.next i now wait = i := by
  simp [IntervalTimer.next, h]

theorem mergeHit_keys (l : List (String × RateLimitReq)) (r : RateLimitReq) :
    (mergeHit l r).map Prod.fst
      = if r.hashKey ∈ l.map Prod.fst then l.map Prod.fst else l.map Prod.fst ++ [r.hashKey] := by
  induction l with
  | nil => simp [mergeHit]
  | cons e rest ih =>
    obtain ⟨k, q⟩ := e
    by_cases hk : k = r.hashKey
    · simp [mergeHit, hk]
    · have hk2 : ¬ r.hashKey = k := fun h => hk h.symm
      by_cases hm : r.hashKey ∈ rest.map Prod.fst
      · simp [mergeHit, hk, ih, hm, hk2]
      · simp [mergeHit, hk, ih, hm, hk2]

theorem mergeHit_length (l : List (String × RateLimitReq)) (r : RateLimitReq) :
    (mergeHit l r).length
      = if r.hashKey ∈ l.map Prod.fst then l.length else l.length + 1 := by
  have h := congrArg List.length (mergeHit_keys l r)
  simp only [List.length_map] at h
  by_cases hm : r.hashKey ∈ l.map Prod.fst
  · simpa [hm] using h
  · simpa [hm] using h

theorem putUpdate_keys (l : List (String × RateLimitReq)) (r : RateLimitReq) :
    (putUpdate l r).map Prod.fst
      = if r.hashKey ∈ l.map Prod.fst then l.map Prod.fst else l.map Prod.fst ++ [r.hashKey] := by
  induction l with
  | nil => simp [putUpdate]
  | cons e rest ih =>
    obtain ⟨k, q⟩ := e
    by_cases hk : k = r.hashKey
    · simp [putUpdate, hk]
    · have hk2 : ¬ r.hashKey = k := fun h => hk h.symm
      by_cases hm : r.hashKey ∈ rest.map Prod.fst
      · simp [putUpdate, hk, ih, hm, hk2]
      · simp [putUpdate, hk, ih, hm, hk2]

theorem putUpdate_length (l : List (String × RateLimitReq)) (r : RateLimitReq) :
    (putUpdate l r).length
      = if r.hashKey ∈ l.map Prod.fst then l.length else l.length + 1 := by
  have h := congrArg List.length (putUpdate_keys l r)
  simp only [List.length_map] at h
  by_cases hm : r.hashKey ∈ l.map Prod.fst
  · simpa [hm] using h
  · simpa [hm] using h

theorem append_singleton_ne {α : Type} (l : List α) (x : α) : l ++ [x] ≠ l := by
  intro h
  have := congrArg List.length h
  simp at this

theorem mem_addReq_cases (acc : List (String × List RateLimitReq)) (h : String) (r : RateLimitReq) :
    ∀ c ∈ addReq acc h r, ∀ q ∈ c.2, (∃ c0 ∈ acc, q ∈ c0.2) ∨ q = r := by
  induction acc with
  | nil =>
    intro c hc q hq
    simp [addReq] at hc
    subst hc
    simp at hq
    exact Or.inr hq
  | cons e rest ih =>
    obtain ⟨h2, l⟩ := e
    intro c hc q hq
    by_cases hh : h2 = h
    · rw [addReq, if_pos hh] at hc
      rcases List.mem_cons.mp hc with hceq | hc2
      · subst hceq
        simp only [List.mem_append, List.mem_singleton] at hq
        rcases hq with hq | hq
        · exact Or.inl ⟨(h2, l), by simp, hq⟩
        · exact Or.inr hq
      · exact Or.inl ⟨c, List.mem_cons_of_mem _ hc2, hq⟩
    · rw [addReq, if_neg hh] at hc
      rcases List.mem_cons.mp hc with hceq | hc2
      · subst hceq
        exact Or.inl ⟨(h2, l), by simp, hq⟩
      · rcases ih c hc2 q hq with ⟨c0, hc0, hq0⟩ | hr
        · exact Or.inl ⟨c0, List.mem_cons_of_mem _ hc0, hq0⟩
        · exact Or.inr hr

theorem foldl_assignHit_sound (getPeer : String → Option Peer) (hits : List (String × RateLimitReq)) :
    ∀ (acc : List (String × List RateLimitReq)), ∀ c ∈ hits.foldl (assignHit getPeer) acc, ∀ q ∈ c.2,
      (∃ c0 ∈ acc, q ∈ c0.2) ∨ ∃ e ∈ hits, q = e.2 ∧ (getPeer e.2.hashKey).isSome := by
  induction hits with
  | nil =>
    intro acc c hc q hq
    exact Or.inl ⟨c, hc, hq⟩
  | cons e hits ih =>
    intro acc c hc q hq
    simp only [List.foldl_cons] at hc
    rcases ih (assignHit getPeer acc e) c hc q hq with ⟨c0, hc0, hq0⟩ | ⟨e2, he2, hqe, hsome⟩
    · unfold assignHit at hc0
      cases hgp : getPeer e.2.hashKey with
      | none =>
        rw [hgp] at hc0
        exact Or.inl ⟨c0, hc0, hq0⟩
      | some p =>
        rw [hgp] at hc0
        rcases mem_addReq_cases acc p.host e.2 c0 hc0 q hq0 with ⟨c1, hc1, hq1⟩ | hqr
        · exact Or.inl ⟨c1, hc1, hq1⟩
        · exact Or.inr ⟨e, List.mem_cons_self _ _, hqr, by rw [hgp]; rfl⟩
    · exact Or.inr ⟨e2, List.mem_cons_of_mem _ he2, hqe, hsome⟩

theorem addReq_self (acc : List (String × List RateLimitReq)) (h : String) (r : RateLimitReq) :
    ∃ l, (h, l) ∈ addReq acc h r ∧ r ∈ l := by
  induction acc with
  | nil => exact ⟨[r], by simp [addReq], by simp⟩
  | cons e rest ih =>
    obtain ⟨h2, l2⟩ := e
    by_cases hh : h2 = h
    · subst hh
      exact ⟨l2 ++ [r], by rw [addReq, if_pos rfl]; exact List.mem_cons_self _ _, by simp⟩
    · obtain ⟨l, hl, hr⟩ := ih
      exact ⟨l, by rw [addReq, if_neg hh]; exact List.mem_cons_of_mem _ hl, hr⟩

theorem addReq_preserve (acc : List (String × List RateLimitReq)) (h2 : String) (r2 : RateLimitReq)
    (h : String) (l : List RateLimitReq) (q : RateLimitReq) :
    (h, l) ∈ acc → q ∈ l → ∃ l2, (h, l2) ∈ addReq acc h2 r2 ∧ q ∈ l2 := by
  induction acc with
  | nil => intro hm _; simp at hm
  | cons e rest ih =>
    obtain ⟨h3, l3⟩ := e
    intro hm hq
    rcases List.mem_cons.mp hm with hme | hme
    · injection hme with hhe hle
      subst hhe
      subst hle
      by_cases hh : h = h2
      · refine ⟨l ++ [r2], ?_, List.mem_append_left _ hq⟩
        rw [addReq, if_pos hh]
        exact List.mem_cons_self _ _
      · refine ⟨l, ?_, hq⟩
        rw [addReq, if_neg hh]
        exact List.mem_cons_self _ _
    · by_cases hh : h3 = h2
      · refine ⟨l, ?_, hq⟩
        rw [addReq, if_pos hh]
        exact List.mem_cons_of_mem _ hme
      · obtain ⟨l2, hl2, hq2⟩ := ih hme hq
        refine ⟨l2, ?_, hq2⟩
        rw [addReq, if_neg hh]
        exact List.mem_cons_of_mem _ hl2

theorem foldl_assignHit_preserve (getPeer : String → Option Peer) (hits : List (String × RateLimitReq)) :
    ∀ (acc : List (String × List RateLimitReq)) (h : String) (l : List RateLimitReq) (q : RateLimitReq),
      (h, l) ∈ acc → q ∈ l → ∃ l2, (h, l2) ∈ hits.foldl (assignHit getPeer) acc ∧ q ∈ l2 := by
  induction hits with
  | nil => intro acc h l q hm hq; exact ⟨l, hm, hq⟩
  | cons e hits ih =>
    intro acc h l q hm hq
    simp only [List.foldl_cons]
    cases hgp : getPeer e.2.hashKey with
    | none =>
      have hstep : assignHit getPeer acc e = acc := by unfold assignHit; rw [hgp]
      rw [hstep]
      exact ih acc h l q hm hq
    | some p =>
      have hstep : assignHit getPeer acc e = addReq acc p.host e.2 := by unfold assignHit; rw [hgp]
      rw [hstep]
      obtain ⟨l2, hl2, hq2⟩ := addReq_preserve acc p.host e.2 h l q hm hq
      exact ih _ h l2 q hl2 hq2

theorem groupHits_complete (getPeer : String → Option Peer) (hits : List (String × RateLimitReq)) :
    ∀ (acc : List (String × List RateLimitReq)) (e : String × RateLimitReq) (p : Peer),
      e ∈ hits → getPeer e.2.hashKey = some p →
      ∃ l, (p.host, l) ∈ hits.foldl (assignHit getPeer) acc ∧ e.2 ∈ l := by
  induction hits with
  | nil => intro acc e p he _; simp at he
  | cons e0 hits ih =>
    intro acc e p he hgp
    simp only [List.foldl_cons]
    rcases List.mem_cons.mp he with hee | hee
    · subst hee
      have hstep : assignHit getPeer acc e = addReq acc p.host e.2 := by unfold assignHit; rw [hgp]
      rw [hstep]
      obtain ⟨l, hl, hr⟩ := addReq_self acc p.host e.2
      exact foldl_assignHit_preserve getPeer hits _ p.host l e.2 hl hr
    · exact ih (assignHit getPeer acc e0) e p hee hgp

theorem broadcastSends_map_fst (g : List UpdatePeerGlobal) (l : List Peer) :
    (broadcastSends g l).map Prod.fst = l.filter (fun p => !p.isOwner) := by
  induction l with
  | nil => rfl
  | cons peer rest ih =>
    cases hp : peer.isOwner with
    | true => simp [broadcastSends, hp, List.filter_cons, ih]
    | false => simp [broadcastSends, hp, List.filter_cons, ih]

theorem mem_broadcastSends (g : List UpdatePeerGlobal) (l : List Peer) :
    ∀ c ∈ broadcastSends g l, c.1.isOwner = false ∧ c.2 = g := by
  induction l with
  | nil => intro c hc; simp [broadcastSends] at hc
  | cons peer rest ih =>
    intro c hc
    cases hp : peer.isOwner with
    | true =>
      rw [broadcastSends, if_pos hp] at hc
      exact ih c hc
    | false =>
      rw [broadcastSends, if_neg (by simp [hp])] at hc
      rcases List.mem_cons.mp hc with hce | hce
      · subst hce
        exact ⟨hp, rfl⟩
      · exact ih c hce

theorem buildGlobals_evalCalls_cleared (evalRL : RateLimitReq → Option RateLimitResp) (l : List (String × RateLimitReq)) :
    ∀ q ∈ (buildGlobals evalRL l).1, q.hits = 0 ∧ q.behavior = 0 := by
  induction l with
  | nil => intro q hq; simp [buildGlobals] at hq
  | cons e rest ih =>
    obtain ⟨k, rl⟩ := e
    intro q hq
    simp only [buildGlobals] at hq
    cases heval : evalRL (clearReq rl) with
    | none =>
      rw [heval] at hq
      rcases List.mem_cons.mp hq with hqe | hqe
      · subst hqe
        exact ⟨rfl, rfl⟩
      · exact ih q hqe
    | some st =>
      rw [heval] at hq
      rcases List.mem_cons.mp hq with hqe | hqe
      · subst hqe
        exact ⟨rfl, rfl⟩
      · exact ih q hqe

theorem recordBroadcastDuration_eq_max (a b : Int) : recordBroadcastDuration a b = max a b := by
  unfold recordBroadcastDuration
  rw [max_def]
  split <;> split <;> omega

theorem foldl_record_eq_foldl_max (ds : List Int) :
    ∀ a : Int, ds.foldl recordBroadcastDuration a = ds.foldl max a := by
  induction ds with
  | nil => intro a; rfl
  | cons d ds ih =>
    intro a
    simp only [List.foldl_cons, recordBroadcastDuration_eq_max]
    exact ih (max a d)

theorem le_foldl_max (ds : List Int) : ∀ a : Int, a ≤ ds.foldl max a := by
  induction ds with
  | nil => intro a; exact le_refl a
  | cons d ds ih =>
    intro a
    exact le_trans (le_max_left a d) (ih (max a d))

theorem mem_le_foldl_max (ds : List Int) : ∀ (a d : Int), d ∈ ds → d ≤ ds.foldl max a := by
  induction ds with
  | nil => intro a d hd; simp at hd
  | cons x xs ih =>
    intro a d hd
    simp only [List.foldl_cons]
    rcases List.mem_cons.mp hd with hdx | hdx
    · subst hdx
      exact le_trans (le_max_right a d) (le_foldl_max xs (max a d))
    · exact ih (max a x) d hdx

theorem foldl_max_mem_or (ds : List Int) : ∀ a : Int, ds.foldl max a = a ∨ ds.foldl max a ∈ ds := by
  induction ds with
  | nil => intro a; exact Or.inl rfl
  | cons x xs ih =>
    intro a
    simp only [List.foldl_cons]
    rcases ih (max a x) with h | h
    · rcases max_choice a x with hm | hm
      · exact Or.inl (by rw [h, hm])
      · exact Or.inr (by rw [h, hm]; exact List.mem_cons_self _ _)
    · exact Or.inr (List.mem_cons_of_mem _ h)

theorem runRecv_same_key (conf : BehaviorConfig) (hlim : conf.globalBatchLimit ≠ 1) (k : String)
    (es : List (Int × RateLimitReq)) :
    ∀ (q : RateLimitReq) (iv : IntervalTimer) (F : List (List (String × RateLimitReq))),
    (∀ e ∈ es, e.2.hashKey = k) → iv.armed = true →
    runRecv conf { hits := [(k, q)], interval := iv, flushed := F } es
      = { hits := [(k, { q with hits := es.foldl (fun a e => wrap64 (a + e.2.hits)) q.hits })],
          interval := iv, flushed := F } := by
  induction es with
  | nil => intro q iv F _ _; rfl
  | cons e es ih =>
    intro q iv F hk harm
    have hek : e.2.hashKey = k := hk e (List.mem_cons_self _ _)
    have hmerge : mergeHit [(k, q)] e.2 = [(k, { q with hits := wrap64 (q.hits + e.2.hits) })] := by
      rw [mergeHit, if_pos hek.symm]
    have hstep : asyncHitsStep conf { hits := [(k, q)], interval := iv, flushed := F } (.recv e.1 e.2)
        = { hits := [(k, { q with hits := wrap64 (q.hits + e.2.hits) })], interval := iv, flushed := F } := by
      simp only [asyncHitsStep, hmerge, List.length_singleton]
      rw [if_neg (fun h => hlim h.symm), if_pos trivial, next_of_armed _ _ _ harm]
    have hrun : runRecv conf { hits := [(k, q)], interval := iv, flushed := F } (e :: es)
        = runRecv conf (asyncHitsStep conf { hits := [(k, q)], interval := iv, flushed := F } (.recv e.1 e.2)) es := rfl
    rw [hrun, hstep, ih _ iv F (fun x hx => hk x (List.mem_cons_of_mem _ hx)) harm]
    simp [List.foldl_cons]

theorem nodup_concat_of_not_mem {α : Type} (l : List α) (a : α) (h : l.Nodup) (hm : a ∉ l) :
    (l ++ [a]).Nodup := by
  simp only [List.nodup_append, List.nodup_cons, List.not_mem_nil, not_false_iff, List.nodup_nil,
    and_true, true_and]
  refine ⟨h, ?_⟩
  intro x hx hxa
  simp only [List.mem_singleton] at hxa
  exact hm (hxa ▸ hx)

theorem mergeHit_nodup (l : List (String × RateLimitReq)) (r : RateLimitReq)
    (hnd : (l.map Prod.fst).Nodup) : ((mergeHit l r).map Prod.fst).Nodup := by
  rw [mergeHit_keys]
  by_cases hm : r.hashKey ∈ l.map Prod.fst
  · rw [if_pos hm]; exact hnd
  · rw [if_neg hm]; exact nodup_concat_of_not_mem _ _ hnd hm

theorem putUpdate_nodup (l : List (String × RateLimitReq)) (r : RateLimitReq)
    (hnd : (l.map Prod.fst).Nodup) : ((putUpdate l r).map Prod.fst).Nodup := by
  rw [putUpdate_keys]
  by_cases hm : r.hashKey ∈ l.map Prod.fst
  · rw [if_pos hm]; exact hnd
  · rw [if_neg hm]; exact nodup_concat_of_not_mem _ _ hnd hm

theorem asyncRecv_cases (conf : BehaviorConfig) (s : AsyncState) (now : Int) (r : RateLimitReq)
    (hlen : s.hits.length < conf.globalBatchLimit) :
    ((asyncHitsStep conf s (.recv now r)).flushed ≠ s.flushed
        ↔ (mergeHit s.hits r).length = conf.globalBatchLimit)
    ∧ ((mergeHit s.hits r).length = conf.globalBatchLimit →
        (asyncHitsStep conf s (.recv now r)).flushed = s.flushed ++ [mergeHit s.hits r]
        ∧ (asyncHitsStep conf s (.recv now r)).hits = []
        ∧ (asyncHitsStep conf s (.recv now r)).interval = s.interval)
    ∧ (r.hashKey ∈ s.hits.map Prod.fst → (asyncHitsStep conf s (.recv now r)).flushed = s.flushed) := by
  by_cases hf : (mergeHit s.hits r).length = conf.globalBatchLimit
  · have hstep : asyncHitsStep conf s (.recv now r)
        = { s with hits := [], flushed := s.flushed ++ [mergeHit s.hits r] } := by
      simp only [asyncHitsStep]
      rw [if_pos hf]
    refine ⟨⟨fun _ => hf, fun _ => ?_⟩, fun _ => ⟨by rw [hstep], by rw [hstep], by rw [hstep]⟩, ?_⟩
    · rw [hstep]
      exact append_singleton_ne _ _
    · intro hmem
      have hlm := mergeHit_length s.hits r
      rw [if_pos hmem] at hlm
      rw [hlm] at hf
      omega
  · have hstep : (asyncHitsStep conf s (.recv now r)).flushed = s.flushed := by
      simp only [asyncHitsStep]
      rw [if_neg hf]
      split
      · rfl
      · rfl
    exact ⟨⟨fun hne => absurd hstep hne, fun hf2 => absurd hf2 hf⟩,
      fun hf2 => absurd hf2 hf, fun _ => hstep⟩

theorem broadcastRecv_cases (conf : BehaviorConfig) (b : BroadcastState) (now : Int) (r : RateLimitReq)
    (hlen : b.updates.length < conf.globalBatchLimit) :
    ((runBroadcastsStep conf b (.recv now r)).flushed ≠ b.flushed
        ↔ (putUpdate b.updates r).length = conf.globalBatchLimit)
    ∧ ((putUpdate b.updates r).length = conf.globalBatchLimit →
        (runBroadcastsStep conf b (.recv now r)).flushed = b.flushed ++ [putUpdate b.updates r]
        ∧ (runBroadcastsStep conf b (.recv now r)).updates = []
        ∧ (runBroadcastsStep conf b (.recv now r)).interval = b.interval)
    ∧ (r.hashKey ∈ b.updates.map Prod.fst → (runBroadcastsStep conf b (.recv now r)).flushed = b.flushed) := by
  by_cases hf : (putUpdate b.updates r).length = conf.globalBatchLimit
  · have hstep : runBroadcastsStep conf b (.recv now r)
        = { b with updates := [], flushed := b.flushed ++ [putUpdate b.updates r] } := by
      simp only [runBroadcastsStep]
      rw [if_pos hf]
    refine ⟨⟨fun _ => hf, fun _ => ?_⟩, fun _ => ⟨by rw [hstep], by rw [hstep], by rw [hstep]⟩, ?_⟩
    · rw [hstep]
      exact append_singleton_ne _ _
    · intro hmem
      have hlm := putUpdate_length b.updates r
      rw [if_pos hmem] at hlm
      rw [hlm] at hf
      omega
  · have hstep : (runBroadcastsStep conf b (.recv now r)).flushed = b.flushed := by
      simp only [runBroadcastsStep]
      rw [if_neg hf]
      split
      · rfl
      · rfl
    exact ⟨⟨fun hne => absurd hstep hne, fun hf2 => absurd hf2 hf⟩,
      fun hf2 => absurd hf2 hf, fun _ => hstep⟩

/-- Claim C7: calling the stats read with the clear flag returns the
counter values as they were immediately before the call and then resets
both counters to zero, so a subsequent read without the clear flag returns
zeros; a read without the clear flag leaves both counters unchanged. -/
theorem stats_clear_read_reset (s : ServerStats) :
    (Stats true s).1 = s
    ∧ (Stats false (Stats true s).2).1 = { asyncGlobalsCount := 0, broadcastDuration := 0 }
    ∧ (Stats false (Stats true s).2).2 = { asyncGlobalsCount := 0, broadcastDuration := 0 }
    ∧ (Stats false s).1 = s
    ∧ (Stats false s).2 = s :=
  ⟨rfl, rfl, rfl, rfl, rfl⟩

/-- Claim C4: for every entry of every broadcast flush, the request's hit
count and behavior flags are set to zero before the request is used for
local evaluation: every request `updatePeers` passes to `getRateLimit` has
`hits = 0` and `behavior = 0`, so no broadcast payload is built from a
request carrying a non-zero hit count or any behavior flag. -/
theorem updatePeers_payload_cleared
    (evalRL : RateLimitReq → Option RateLimitResp) (peerList : List Peer)
    (updates : List (String × RateLimitReq)) (d stored : Int) :
    ∀ q ∈ (updatePeers evalRL peerList updates d stored).evalCalls,
      q.hits = 0 ∧ q.behavior = 0 := by
  intro q hq
  simp only [updatePeers] at hq
  exact buildGlobals_evalCalls_cleared evalRL updates q hq

/-- Claim C6: a broadcast flush sends the single accumulated message once
to every peer of the current peer list whose owner flag is false, never to
a peer whose owner flag is true, and every send carries the full
accumulated message of successfully evaluated entries. -/
theorem updatePeers_broadcast_to_nonowners
    (evalRL : RateLimitReq → Option RateLimitResp) (peerList : List Peer)
    (updates : List (String × RateLimitReq)) (d stored : Int) :
    ((updatePeers evalRL peerList updates d stored).sends.map Prod.fst
        = peerList.filter (fun p => !p.isOwner))
    ∧ ∀ c ∈ (updatePeers evalRL peerList updates d stored).sends,
        c.1.isOwner = false ∧ c.2 = (updatePeers evalRL peerList updates d stored).globals := by
  constructor
  · simp only [updatePeers]
    exact broadcastSends_map_fst _ peerList
  · intro c hc
    simp only [updatePeers] at hc ⊢
    exact mem_broadcastSends _ peerList c hc

/-- Claim C10: the broadcast flush mutates the very request objects that
were queued: after the flush each queued entry's request object has hits
zero and behavior zero while its key and remaining fields are unchanged
(the in-place mutation is modelled by the `mutated` field of the
`updatePeers` result). -/
theorem updatePeers_mutates_requests
    (evalRL : RateLimitReq → Option RateLimitResp) (peerList : List Peer)
    (updates : List (String × RateLimitReq)) (d stored : Int) :
    ∀ e ∈ updates, ∃ m ∈ (updatePeers evalRL peerList updates d stored).mutated,
      m.1 = e.1 ∧ m.2.hits = 0 ∧ m.2.behavior = 0 ∧ m.2.hashKey = e.2.hashKey
      ∧ m.2.limit = e.2.limit ∧ m.2.duration = e.2.duration := by
  intro e he
  refine ⟨(e.1, clearReq e.2), ?_, rfl, rfl, rfl, rfl, rfl, rfl⟩
  simp only [updatePeers]
  exact List.mem_map_of_mem _ he

/-- Claim C8: the broadcast-duration statistic is a high-water mark:
starting from the cleared value zero, after flushes whose dispatch
durations are `ds` it equals the maximum duration observed (an element of
`ds` bounding all of `ds`), it is positive whenever any observed duration
is, and each flush updates it through `recordBroadcastDuration`, which
overwrites only on strict excess and never sums. -/
theorem broadcastDuration_high_water (ds : List Int) (hne : ds ≠ [])
    (hpos : ∀ d ∈ ds, 0 ≤ d) :
    (ds.foldl recordBroadcastDuration 0 ∈ ds)
    ∧ (∀ d ∈ ds, d ≤ ds.foldl recordBroadcastDuration 0)
    ∧ ((∃ d ∈ ds, 0 < d) → 0 < ds.foldl recordBroadcastDuration 0)
    ∧ ∀ (evalRL : RateLimitReq → Option RateLimitResp) (peerList : List Peer)
        (updates : List (String × RateLimitReq)) (d stored : Int),
        (updatePeers evalRL peerList updates d stored).newDuration
          = recordBroadcastDuration stored d := by
  have hfold := foldl_record_eq_foldl_max ds 0
  have hub : ∀ d ∈ ds, d ≤ ds.foldl recordBroadcastDuration 0 := by
    intro d hd
    rw [hfold]
    exact mem_le_foldl_max ds 0 d hd
  refine ⟨?_, hub, ?_, fun _ _ _ _ _ => rfl⟩
  · rw [hfold]
    rcases foldl_max_mem_or ds 0 with h0 | hm
    · obtain ⟨d0, hd0⟩ := List.exists_mem_of_ne_nil ds hne
      have h1 : d0 ≤ ds.foldl max 0 := mem_le_foldl_max ds 0 d0 hd0
      have h2 : 0 ≤ d0 := hpos d0 hd0
      have h3 : ds.foldl max 0 = d0 := by omega
      rw [h3]
      exact hd0
    · exact hm
  · intro hd
    obtain ⟨d, hd1, hd2⟩ := hd
    exact lt_of_lt_of_le hd2 (hub d hd1)

/-- Claim C5: after each hit-batch flush the `AsyncGlobalsCount` counter
increases by exactly the number of distinct keys of the flushed batch,
regardless of peer-resolution failures and of per-peer send outcomes. -/
theorem sendHits_counts_distinct_keys (getPeer : String → Option Peer) (sendOk : String → Bool)
    (hits : List (String × RateLimitReq)) (count : Int)
    (hnd : (hits.map Prod.fst).Nodup)
    (hrange : inInt64 (count + hits.length)) :
    (sendHits getPeer sendOk hits count).newCount
      = count + (hits.map Prod.fst).dedup.length := by
  have hdl : (hits.map Prod.fst).dedup = hits.map Prod.fst := List.dedup_eq_self.mpr hnd
  simp only [sendHits]
  rw [hdl, List.length_map]
  exact wrap64_eq_of_inInt64 _ hrange

/-- Claim C9: during a hit-batch flush, a request whose owning-peer
resolution fails is dropped from this flush (it appears in no outgoing
call) while every request whose resolution succeeds is still grouped into
the call to its owning peer's host. -/
theorem sendHits_drops_only_failed (getPeer : String → Option Peer) (sendOk : String → Bool)
    (hits : List (String × RateLimitReq)) (count : Int)
    (e3 e4 : String × RateLimitReq) (p : Peer)
    (h3 : e3 ∈ hits) (hfail : getPeer e3.2.hashKey = none)
    (h4 : e4 ∈ hits) (hok : getPeer e4.2.hashKey = some p) :
    (∀ c ∈ (sendHits getPeer sendOk hits count).calls, ∀ q ∈ c.2, q ≠ e3.2)
    ∧ ∃ c ∈ (sendHits getPeer sendOk hits count).calls, c.1 = p.host ∧ e4.2 ∈ c.2 := by
  constructor
  · intro c hc q hq hqe
    simp only [sendHits, groupHits] at hc
    rcases foldl_assignHit_sound getPeer hits [] c hc q hq with ⟨c0, hc0, _⟩ | ⟨e, _, hqe2, hsome⟩
    · simp at hc0
    · rw [← hqe2, hqe, hfail] at hsome
      simp at hsome
  · simp only [sendHits, groupHits]
    obtain ⟨l, hl, hm⟩ := groupHits_complete getPeer hits [] e4 p h4 hok
    exact ⟨(p.host, l), hl, rfl, hm⟩

/-- Claim C1: for a sequence of hit requests sharing one hash key queued
before a flush (batch limit not 1, so no size flush intervenes), the batch
flushed on the interval fire contains exactly one entry for that key, the
first queued request with the hit increments of all queued requests summed
into its hit count (sums staying within `int64`). -/
theorem async_hits_aggregate (conf : BehaviorConfig) (hlim : conf.globalBatchLimit ≠ 1)
    (t0 : Int) (r0 : RateLimitReq) (rest : List (Int × RateLimitReq))
    (hk : ∀ e ∈ rest, e.2.hashKey = r0.hashKey)
    (hs : sumsInRange r0.hits (rest.map (fun e => e.2.hits)) = true) :
    (asyncHitsStep conf (runRecv conf initAsync ((t0, r0) :: rest)) .tick).flushed
      = [[(r0.hashKey, { r0 with hits := r0.hits + (rest.map (fun e => e.2.hits)).sum })]] := by
  have hstep0 : asyncHitsStep conf initAsync (.recv t0 r0)
      = { hits := [(r0.hashKey, r0)],
          interval := { armed := true, deadline := t0 + conf.globalSyncWait }, flushed := [] } := by
    simp only [asyncHitsStep, initAsync, mergeHit, List.length_singleton]
    rw [if_neg (fun h => hlim h.symm), if_pos trivial]
    rfl
  have hrun : runRecv conf initAsync ((t0, r0) :: rest)
      = runRecv conf (asyncHitsStep conf initAsync (.recv t0 r0)) rest := rfl
  have hfold : rest.foldl (fun a e => wrap64 (a + e.2.hits)) r0.hits
      = r0.hits + (rest.map (fun e => e.2.hits)).sum := by
    have h1 : rest.foldl (fun a e => wrap64 (a + e.2.hits)) r0.hits
        = (rest.map (fun e => e.2.hits)).foldl (fun a x => wrap64 (a + x)) r0.hits := by
      rw [List.foldl_map]
    rw [h1]
    exact foldl_wrap_of_sumsInRange _ r0.hits hs
  rw [hrun, hstep0, runRecv_same_key conf hlim r0.hashKey rest r0
    { armed := true, deadline := t0 + conf.globalSyncWait } [] hk rfl]
  simp only [asyncHitsStep, List.isEmpty_cons, hfold]
  rfl

/-- Claim C2: the debounce timer of the hit pipeline is armed by the
insertion that puts the first item into the empty batch, arming an armed
timer is a no-op, and a burst of repeated hits to one key never moves the
flush deadline beyond the one set when the first hit arrived: after the
whole burst the timer is still armed for `t0 + GlobalSyncWait`, exactly as
after the first hit alone, and no flush happened. -/
theorem async_debounce_not_extended (conf : BehaviorConfig) (hlim : conf.globalBatchLimit ≠ 1)
    (t0 : Int) (r0 : RateLimitReq) (rest : List (Int × RateLimitReq))
    (hk : ∀ e ∈ rest, e.2.hashKey = r0.hashKey) :
    (runRecv conf initAsync ((t0, r0) :: rest)).interval
        = { armed := true, deadline := t0 + conf.globalSyncWait }
    ∧ (runRecv conf initAsync [(t0, r0)]).interval
        = { armed := true, deadline := t0 + conf.globalSyncWait }
    ∧ (runRecv conf initAsync ((t0, r0) :: rest)).flushed = []
    ∧ ∀ (i : IntervalTimer) (now wait : Int), i.armed = true →
        IntervalTimer.next i now wait = i := by
  have hstep0 : asyncHitsStep conf initAsync (.recv t0 r0)
      = { hits := [(r0.hashKey, r0)],
          interval := { armed := true, deadline := t0 + conf.globalSyncWait }, flushed := [] } := by
    simp only [asyncHitsStep, initAsync, mergeHit, List.length_singleton]
    rw [if_neg (fun h => hlim h.symm), if_pos trivial]
    rfl
  have hrun : runRecv conf initAsync ((t0, r0) :: rest)
      = runRecv conf (asyncHitsStep conf initAsync (.recv t0 r0)) rest := rfl
  have hall := runRecv_same_key conf hlim r0.hashKey rest r0
    { armed := true, deadline := t0 + conf.globalSyncWait } [] hk rfl
  refine ⟨?_, ?_, ?_, fun i now wait h => next_of_armed i now wait h⟩
  · rw [hrun, hstep0, hall]
  · show (asyncHitsStep conf initAsync (.recv t0 r0)).interval = _
    rw [hstep0]
  · rw [hrun, hstep0, hall]

/-- Claim C3: each pipeline flushes during an insertion, without waiting
for the debounce timer, exactly when the insertion brings the number of
distinct keys of the batch (an association list with no duplicate keys,
kept below the positive batch limit) to the configured batch limit; the
batch is then reset to empty and the timer untouched; an insertion that
merges into an existing key never triggers a size-based flush. -/
theorem batch_limit_flush (conf : BehaviorConfig) (hposl : 0 < conf.globalBatchLimit)
    (s : AsyncState) (hnd : (s.hits.map Prod.fst).Nodup)
    (hlen : s.hits.length < conf.globalBatchLimit)
    (b : BroadcastState) (hndb : (b.updates.map Prod.fst).Nodup)
    (hlenb : b.updates.length < conf.globalBatchLimit)
    (now : Int) (r : RateLimitReq) :
    (((asyncHitsStep conf s (.recv now r)).flushed ≠ s.flushed
        ↔ (mergeHit s.hits r).length = conf.globalBatchLimit)
      ∧ ((mergeHit s.hits r).length = conf.globalBatchLimit →
          (asyncHitsStep conf s (.recv now r)).flushed = s.flushed ++ [mergeHit s.hits r]
          ∧ (asyncHitsStep conf s (.recv now r)).hits = []
          ∧ (asyncHitsStep conf s (.recv now r)).interval = s.interval)
      ∧ (r.hashKey ∈ s.hits.map Prod.fst → (asyncHitsStep conf s (.recv now r)).flushed = s.flushed)
      ∧ ((mergeHit s.hits r).map Prod.fst).Nodup)
    ∧ (((runBroadcastsStep conf b (.recv now r)).flushed ≠ b.flushed
        ↔ (putUpdate b.updates r).length = conf.globalBatchLimit)
      ∧ ((putUpdate b.updates r).length = conf.globalBatchLimit →
          (runBroadcastsStep conf b (.recv now r)).flushed = b.flushed ++ [putUpdate b.updates r]
          ∧ (runBroadcastsStep conf b (.recv now r)).updates = []
          ∧ (runBroadcastsStep conf b (.recv now r)).interval = b.interval)
      ∧ (r.hashKey ∈ b.updates.map Prod.fst → (runBroadcastsStep conf b (.recv now r)).flushed = b.flushed)
      ∧ ((putUpdate b.updates r).map Prod.fst).Nodup) := by
  obtain ⟨ha1, ha2, ha3⟩ := asyncRecv_cases conf s now r hlen
  obtain ⟨hb1, hb2, hb3⟩ := broadcastRecv_cases conf b now r hlenb
  exact ⟨⟨ha1, ha2, ha3, mergeHit_nodup s.hits r hnd⟩,
    ⟨hb1, hb2, hb3, putUpdate_nodup b.updates r hndb⟩⟩

/-- Witness for C1 at a concrete burst of three same-key hits. -/
theorem async_hits_aggregate_witness :
    (asyncHitsStep { globalSyncWait := 100, globalBatchLimit := 10, globalTimeout := 5 }
        (runRecv { globalSyncWait := 100, globalBatchLimit := 10, globalTimeout := 5 } initAsync
          ((0, { hashKey := "k", hits := 1, behavior := 0, limit := 9, duration := 7 })
            :: [(3, { hashKey := "k", hits := 2, behavior := 0, limit := 9, duration := 7 }),
                (5, { hashKey := "k", hits := 4, behavior := 0, limit := 9, duration := 7 })])) .tick).flushed
      = [[("k", { ({ hashKey := "k", hits := 1, behavior := 0, limit := 9, duration := 7 } : RateLimitReq) with
            hits := (1 : Int) + (([(3, ({ hashKey := "k", hits := 2, behavior := 0, limit := 9, duration := 7 } : RateLimitReq)),
                (5, ({ hashKey := "k", hits := 4, behavior := 0, limit := 9, duration := 7 } : RateLimitReq))].map
                  (fun e => e.2.hits)).sum) })]] :=
  async_hits_aggregate { globalSyncWait := 100, globalBatchLimit := 10, globalTimeout := 5 }
    (by decide) 0 { hashKey := "k", hits := 1, behavior := 0, limit := 9, duration := 7 }
    [(3, { hashKey := "k", hits := 2, behavior := 0, limit := 9, duration := 7 }),
     (5, { hashKey := "k", hits := 4, behavior := 0, limit := 9, duration := 7 })]
    (by decide) (by decide)

/-- Witness for C2 at a concrete two-hit burst on one key. -/
theorem async_debounce_not_extended_witness :
    (runRecv { globalSyncWait := 100, globalBatchLimit := 10, globalTimeout := 5 } initAsync
        ((2, { hashKey := "k", hits := 1, behavior := 0, limit := 9, duration := 7 })
          :: [(3, { hashKey := "k", hits := 1, behavior := 0, limit := 9, duration := 7 })])).interval
      = { armed := true, deadline := 2 + 100 } :=
  (async_debounce_not_extended { globalSyncWait := 100, globalBatchLimit := 10, globalTimeout := 5 }
    (by decide) 2 { hashKey := "k", hits := 1, behavior := 0, limit := 9, duration := 7 }
    [(3, { hashKey := "k", hits := 1, behavior := 0, limit := 9, duration := 7 })] (by decide)).1

/-- Witness for C3: with batch limit 2, a second distinct key triggers the
size flush and resets the batch. -/
theorem batch_limit_flush_witness :
    (asyncHitsStep { globalSyncWait := 100, globalBatchLimit := 2, globalTimeout := 5 }
        { hits := [("a", { hashKey := "a", hits := 1, behavior := 0, limit := 9, duration := 7 })],
          interval := { armed := true, deadline := 100 }, flushed := [] }
        (.recv 0 { hashKey := "b", hits := 2, behavior := 0, limit := 9, duration := 7 })).hits = [] :=
  ((batch_limit_flush { globalSyncWait := 100, globalBatchLimit := 2, globalTimeout := 5 }
    (by decide)
    { hits := [("a", { hashKey := "a", hits := 1, behavior := 0, limit := 9, duration := 7 })],
      interval := { armed := true, deadline := 100 }, flushed := [] }
    (by decide) (by decide)
    { updates := [], interval := { armed := false, deadline := 0 }, flushed := [] }
    (by decide) (by decide)
    0 { hashKey := "b", hits := 2, behavior := 0, limit := 9, duration := 7 }).1.2.1
    (by decide)).2.1

/-- Witness for C4 at a concrete one-entry broadcast batch. -/
theorem updatePeers_payload_cleared_witness :
    ({ hashKey := "k1", hits := 0, behavior := 0, limit := 5, duration := 9 } : RateLimitReq).hits = 0
    ∧ ({ hashKey := "k1", hits := 0, behavior := 0, limit := 5, duration := 9 } : RateLimitReq).behavior = 0 :=
  updatePeers_payload_cleared (fun _ => none) []
    [("k1", { hashKey := "k1", hits := 7, behavior := 3, limit := 5, duration := 9 })] 4 0
    { hashKey := "k1", hits := 0, behavior := 0, limit := 5, duration := 9 } (by decide)

/-- Witness for C6: three peers, one of them the owner; a send to a
non-owner carries the full two-entry message. -/
theorem updatePeers_broadcast_to_nonowners_witness :
    (Peer.mk "p1" false).isOwner = false
    ∧ ([{ key := "k1", status := { remaining := 5 } },
        { key := "k2", status := { remaining := 8 } }] : List UpdatePeerGlobal)
      = (updatePeers (fun r => some { remaining := r.limit })
          [{ host := "self", isOwner := true }, { host := "p1", isOwner := false },
           { host := "p2", isOwner := false }]
          [("k1", { hashKey := "k1", hits := 4, behavior := 2, limit := 5, duration := 9 }),
           ("k2", { hashKey := "k2", hits := 6, behavior := 1, limit := 8, duration := 9 })] 3 0).globals :=
  (updatePeers_broadcast_to_nonowners (fun r => some { remaining := r.limit })
    [{ host := "self", isOwner := true }, { host := "p1", isOwner := false },
     { host := "p2", isOwner := false }]
    [("k1", { hashKey := "k1", hits := 4, behavior := 2, limit := 5, duration := 9 }),
     ("k2", { hashKey := "k2", hits := 6, behavior := 1, limit := 8, duration := 9 })] 3 0).2
    ({ host := "p1", isOwner := false },
      [{ key := "k1", status := { remaining := 5 } }, { key := "k2", status := { remaining := 8 } }])
    (by decide)

/-- Witness for C10 at a concrete queued entry. -/
theorem updatePeers_mutates_requests_witness :
    ∃ m ∈ (updatePeers (fun _ => none) []
        [("k1", { hashKey := "k1", hits := 7, behavior := 3, limit := 5, duration := 9 })] 4 0).mutated,
      m.1 = ("k1", ({ hashKey := "k1", hits := 7, behavior := 3, limit := 5, duration := 9 } : RateLimitReq)).1
      ∧ m.2.hits = 0 ∧ m.2.behavior = 0
      ∧ m.2.hashKey = ("k1", ({ hashKey := "k1", hits := 7, behavior := 3, limit := 5, duration := 9 } : RateLimitReq)).2.hashKey
      ∧ m.2.limit = ("k1", ({ hashKey := "k1", hits := 7, behavior := 3, limit := 5, duration := 9 } : RateLimitReq)).2.limit
      ∧ m.2.duration = ("k1", ({ hashKey := "k1", hits := 7, behavior := 3, limit := 5, duration := 9 } : RateLimitReq)).2.duration :=
  updatePeers_mutates_requests (fun _ => none) []
    [("k1", { hashKey := "k1", hits := 7, behavior := 3, limit := 5, duration := 9 })] 4 0
    ("k1", { hashKey := "k1", hits := 7, behavior := 3, limit := 5, duration := 9 }) (by decide)

/-- Witness for C8 at the duration sequence 3, 7, 2. -/
theorem broadcastDuration_high_water_witness :
    (([3, 7, 2] : List Int).foldl recordBroadcastDuration 0 ∈ ([3, 7, 2] : List Int))
    ∧ (∀ d ∈ ([3, 7, 2] : List Int), d ≤ ([3, 7, 2] : List Int).foldl recordBroadcastDuration 0)
    ∧ ((∃ d ∈ ([3, 7, 2] : List Int), 0 < d) → 0 < ([3, 7, 2] : List Int).foldl recordBroadcastDuration 0)
    ∧ ∀ (evalRL : RateLimitReq → Option RateLimitResp) (peerList : List Peer)
        (updates : List (String × RateLimitReq)) (d stored : Int),
        (updatePeers evalRL peerList updates d stored).newDuration
          = recordBroadcastDuration stored d :=
  broadcastDuration_high_water [3, 7, 2] (by decide) (by decide)

/-- Witness for C5: two distinct keys, one resolution failure, all sends
failing; the counter still advances by two. -/
theorem sendHits_counts_distinct_keys_witness :
    (sendHits (fun k => if k = "k1" then none else some { host := "h", isOwner := false })
        (fun _ => false)
        [("k1", { hashKey := "k1", hits := 1, behavior := 0, limit := 9, duration := 7 }),
         ("k2", { hashKey := "k2", hits := 2, behavior := 0, limit := 9, duration := 7 })] 5).newCount
      = 5 + (([("k1", ({ hashKey := "k1", hits := 1, behavior := 0, limit := 9, duration := 7 } : RateLimitReq)),
          ("k2", ({ hashKey := "k2", hits := 2, behavior := 0, limit := 9, duration := 7 } : RateLimitReq))].map
            Prod.fst).dedup.length) :=
  sendHits_counts_distinct_keys
    (fun k => if k = "k1" then none else some { host := "h", isOwner := false })
    (fun _ => false)
    [("k1", { hashKey := "k1", hits := 1, behavior := 0, limit := 9, duration := 7 }),
     ("k2", { hashKey := "k2", hits := 2, behavior := 0, limit := 9, duration := 7 })] 5
    (by decide) (by decide)

/-- Witness for C9: resolution fails for K3 and succeeds for K4 in one
batch; K3 reaches no call while K4 is dispatched to its owner. -/
theorem sendHits_drops_only_failed_witness :
    (∀ c ∈ (sendHits (fun k => if k = "k4" then some { host := "h4", isOwner := false } else none)
        (fun _ => true)
        [("k3", { hashKey := "k3", hits := 1, behavior := 0, limit := 9, duration := 7 }),
         ("k4", { hashKey := "k4", hits := 2, behavior := 0, limit := 9, duration := 7 })] 0).calls,
      ∀ q ∈ c.2, q ≠ ("k3", ({ hashKey := "k3", hits := 1, behavior := 0, limit := 9, duration := 7 } : RateLimitReq)).2)
    ∧ ∃ c ∈ (sendHits (fun k => if k = "k4" then some { host := "h4", isOwner := false } else none)
        (fun _ => true)
        [("k3", { hashKey := "k3", hits := 1, behavior := 0, limit := 9, duration := 7 }),
         ("k4", { hashKey := "k4", hits := 2, behavior := 0, limit := 9, duration := 7 })] 0).calls,
      c.1 = (Peer.mk "h4" false).host
      ∧ ("k4", ({ hashKey := "k4", hits := 2, behavior := 0, limit := 9, duration := 7 } : RateLimitReq)).2 ∈ c.2 :=
  sendHits_drops_only_failed
    (fun k => if k = "k4" then some { host := "h4", isOwner := false } else none)
    (fun _ => true)
    [("k3", { hashKey := "k3", hits := 1, behavior := 0, limit := 9, duration := 7 }),
     ("k4", { hashKey := "k4", hits := 2, behavior := 0, limit := 9, duration := 7 })] 0
    ("k3", { hashKey := "k3", hits := 1, behavior := 0, limit := 9, duration := 7 })
    ("k4", { hashKey := "k4", hits := 2, behavior := 0, limit := 9, duration := 7 })
    { host := "h4", isOwner := false }
    (by decide) (by decide) (by decide) (by decide)
